import Mathlib

/-!
Formal model of the Lotofácil analyzer (association.py, transform.py).

Draw histories are lists of CSV rows (lists of integers); the occurrence
matrix is a list of boolean rows, column `n - 1` holding number `n`.
Python floats are modelled as exact rationals; every fallible step is an
`Except`, mirroring the exceptions the Python run can raise.
-/

/-- One step of the one-hot encoding loop shared by
`LotofacilAnalyzer.load_and_prepare_data` (association.py, lines 36-38) and
`create_lotofacil_onehot` (transform.py, lines 22-26): the drawn value `v` is
offset to the 0-based index `v - 1` and that cell of the row is assigned 1.
A numpy index into a width-25 row is legal when it lies in `[-25, 24]`, a
negative index wrapping from the end (`Int.emod` reproduces the wrap); any
other index raises `IndexError`.  No range or cardinality validation exists
anywhere in the source. -/
def encodeStep (acc : List Bool) (v : Int) : Except String (List Bool) :=
  if -25 ≤ v - 1 ∧ v - 1 < 25 then
    Except.ok (acc.set ((v - 1) % 25).toNat true)
  else
    Except.error "IndexError"

/-- One-hot encoding of a single CSV row into a width-25 boolean row,
starting from the zero row of `np.zeros((n, 25))`. -/
def encodeRow (row : List Int) : Except String (List Bool) :=
  row.foldlM encodeStep (List.replicate 25 false)

/-- The error-free part of `encodeRow`, used to state what the encoding
produces when every index is legal. -/
def encodeSet (acc : List Bool) (v : Int) : List Bool :=
  acc.set (((v - 1) % 25).toNat) true

/-- The error-free encoding of one row. -/
def encodeRowPure (row : List Int) : List Bool :=
  row.foldl encodeSet (List.replicate 25 false)

/-- Model of `LotofacilAnalyzer.load_and_prepare_data`: the CSV rows are
one-hot encoded row by row into the occurrence matrix `onehot_df`; the method
performs no validation of value range or row cardinality. -/
def load_and_prepare_data (rows : List (List Int)) : Except String (List (List Bool)) :=
  rows.mapM encodeRow

/-- Model of `create_lotofacil_onehot` (transform.py): the standalone export
utility runs the same per-row encoding loop as `load_and_prepare_data`. -/
def create_lotofacil_onehot (rows : List (List Int)) : Except String (List (List Bool)) :=
  rows.mapM encodeRow

/-- The state stored by `LotofacilAnalyzer.__init__` (association.py, lines
11-22): the CSV path and the two thresholds, assigned verbatim.  The fields
initialised to `None` (df, onehot_df, frequent_itemsets, rules,
recommended_numbers) are omitted.  The constructor contains no validation of
any parameter, and `max_itemset_size` is not a parameter at all. -/
structure LotofacilAnalyzer where
  csv_file : String
  min_support : ℚ
  min_confidence : ℚ
  deriving DecidableEq

/-- Model of `LotofacilAnalyzer.__init__` (Python defaults: `min_support=0.3`,
`min_confidence=0.5`): unconditional field assignment. -/
def LotofacilAnalyzer.init (csv_file : String) (min_support min_confidence : ℚ) :
    LotofacilAnalyzer :=
  ⟨csv_file, min_support, min_confidence⟩

/-- Support of an itemset on the occurrence matrix: the fraction of rows in
which every member's column is set (column `v - 1` holds number `v`). -/
def itemsetSupport (m : List (List Bool)) (s : List Nat) : ℚ :=
  ((m.countP fun row => s.all fun v => row.getD (v - 1) false : Nat) : ℚ) / (m.length : ℚ)

/-- Modelled from the spec: the `mlxtend.frequent_patterns.apriori` call in
`analyze_patterns` is external library code, so its semantics follows the
spec's Pattern Miner contract.  Level 1 keeps the single numbers whose
support reaches `min_support`. -/
def frequentSingletons (min_support : ℚ) (m : List (List Bool)) : List (List Nat) :=
  ((List.range 25).map fun j => [j + 1]).filter fun s => min_support ≤ itemsetSupport m s

/-- Modelled from the spec: candidate generation extends a frequent itemset
(kept as an ascending list) by one strictly larger number, so every candidate
arises exactly once. -/
def extendItemset (s : List Nat) : List (List Nat) :=
  ((List.range 25).map fun j => j + 1).filterMap fun v =>
    if s.all fun u => u < v then some (s ++ [v]) else none

/-- Modelled from the spec: one level of the search — candidates whose every
size-minus-one subset was frequent at the previous level are kept when their
support reaches `min_support`. -/
def levelUp (min_support : ℚ) (m : List (List Bool)) (freq : List (List Nat)) :
    List (List Nat) :=
  (((freq.map extendItemset).flatten.filter fun c =>
      (List.range c.length).all fun i => c.eraseIdx i ∈ freq).filter
    fun c => min_support ≤ itemsetSupport m c)

/-- Modelled from the spec: the level-wise loop, running for at most
`max_len` levels and stopping as soon as a level is empty. -/
def aprioriFrom (min_support : ℚ) (m : List (List Bool)) :
    Nat → List (List Nat) → List (List Nat)
  | 0, _ => []
  | fuel + 1, freq =>
    if freq = [] then []
    else freq ++ aprioriFrom min_support m fuel (levelUp min_support m freq)

/-- Modelled from the spec: `mlxtend.frequent_patterns.apriori` with
`use_colnames=True` — every frequent itemset of size up to `max_len`,
together with its support. -/
def apriori (min_support : ℚ) (max_len : Nat) (m : List (List Bool)) :
    List (List Nat × ℚ) :=
  (aprioriFrom min_support m max_len (frequentSingletons min_support m)).map
    fun s => (s, itemsetSupport m s)

/-- One row of the `mlxtend.association_rules` DataFrame exactly as the
scorer consumes it: the antecedent and consequent number lists and the rule's
`support` and `confidence` columns. -/
structure Rule where
  antecedents : List Nat
  consequents : List Nat
  support : ℚ
  confidence : ℚ
  deriving DecidableEq

/-- Modelled from the spec: `mlxtend.frequent_patterns.association_rules` is
external library code; per the spec's rule-generation contract, every
frequent itemset of size at least 2 yields one rule per non-empty proper
subset (the antecedent), with confidence `support(itemset)/support(antecedent)`,
kept when the confidence reaches the threshold. -/
def associationRules (min_confidence : ℚ) (m : List (List Bool))
    (itemsets : List (List Nat × ℚ)) : List Rule :=
  itemsets.flatMap fun p =>
    if 2 ≤ p.1.length then
      (p.1.sublists.filter fun a => a ≠ [] ∧ a.length < p.1.length).filterMap fun a =>
        if min_confidence ≤ p.2 / itemsetSupport m a then
          some ⟨a, p.1.filter fun v => v ∉ a, p.2, p.2 / itemsetSupport m a⟩
        else none
    else []

/-- Model of `LotofacilAnalyzer.analyze_patterns` (association.py, lines
46-64): the apriori call hardcodes `max_len=6`; the thresholds come from the
constructor.  The method performs no emptiness check on the matrix and the
source defines no exception of its own. -/
def analyze_patterns (min_support min_confidence : ℚ) (m : List (List Bool)) :
    List (List Nat × ℚ) × List Rule :=
  (apriori min_support 6 m, associationRules min_confidence m (apriori min_support 6 m))

/-- Mining as the spec words it, with the maximum itemset size an external
parameter; compared against `analyze_patterns`, whose maximum size is the
constant 6. -/
def minePatterns (min_support min_confidence : ℚ) (max_itemset_size : Nat)
    (m : List (List Bool)) : List (List Nat × ℚ) × List Rule :=
  (apriori min_support max_itemset_size m,
    associationRules min_confidence m (apriori min_support max_itemset_size m))

/-- The column frequency `self.onehot_df.sum() / len(self.onehot_df)` for the
0-based column `j` (association.py, line 71). -/
def numero_frequency (m : List (List Bool)) (j : Nat) : ℚ :=
  ((m.countP fun row => row.getD j false : Nat) : ℚ) / (m.length : ℚ)

/-- The slice `self.onehot_df.iloc[-10:]` (association.py, line 93): the last
10 rows, or all rows when there are fewer — the window length 10 is a literal
in the source. -/
def recent_games (m : List (List Bool)) : List (List Bool) :=
  m.drop (m.length - 10)

/-- The column frequency over the recent slice (association.py, line 94). -/
def recent_freq (m : List (List Bool)) (j : Nat) : ℚ :=
  (((recent_games m).countP fun row => row.getD j false : Nat) : ℚ) /
    ((recent_games m).length : ℚ)

/-- The per-rule contribution `rule['confidence'] * rule['support'] * 0.4`
(association.py, line 88). -/
def rule_score (r : Rule) : ℚ :=
  r.confidence * r.support * (4 / 10)

/-- A single dictionary update `number_scores[num] += v`; the dictionary is
modelled as a total function on ℕ. -/
def updScore (s : Nat → ℚ) (num : Nat) (v : ℚ) : Nat → ℚ :=
  fun k => if k = num then s k + v else s k

/-- One iteration of the rule loop (association.py, lines 84-90): the rule's
contribution is added once per occurrence of a number in
`ant_nums + cons_nums`. -/
def apply_rule (s : Nat → ℚ) (r : Rule) : Nat → ℚ :=
  (r.antecedents ++ r.consequents).foldl (fun acc num => updScore acc num (rule_score r)) s

/-- The score dictionary built by `calculate_recommendations` (association.py,
lines 66-97): keys 1..25 start at 0, gain `frequency * 0.3`, then the rule
contributions, then `recent_frequency * 0.3`.  In Python the dictionary holds
exactly the keys 1..25, and `+=` on any other key raises `KeyError`; theorems
over rule sets therefore assume all rule members lie in 1..25. -/
def number_scores (m : List (List Bool)) (rules : List Rule) : Nat → ℚ :=
  let s1 : Nat → ℚ := fun n =>
    if 1 ≤ n ∧ n ≤ 25 then numero_frequency m (n - 1) * (3 / 10) else 0
  let s2 := rules.foldl apply_rule s1
  fun n => if 1 ≤ n ∧ n ≤ 25 then s2 n + recent_freq m (n - 1) * (3 / 10) else s2 n

/-- The items of the score dictionary in insertion order (keys 1..25),
as passed to `sorted` (association.py, lines 100-104). -/
def score_items (m : List (List Bool)) (rules : List Rule) : List (Nat × ℚ) :=
  (List.range 25).map fun i => (i + 1, number_scores m rules (i + 1))

/-- One insertion step of a stable descending sort: the new element (earlier
in the input) is placed before the first element whose score does not exceed
it, which is exactly where Python's stable `sorted(..., reverse=True)` leaves
it. -/
def insertDesc (x : Nat × ℚ) : List (Nat × ℚ) → List (Nat × ℚ)
  | [] => [x]
  | y :: ys => if y.2 ≤ x.2 then x :: y :: ys else y :: insertDesc x ys

/-- Stable descending sort by score, modelling
`sorted(number_scores.items(), key=lambda x: x[1], reverse=True)`:
Python's sort is guaranteed stable, and `reverse=True` preserves the original
relative order of elements with equal keys. -/
def sortDesc (l : List (Nat × ℚ)) : List (Nat × ℚ) :=
  l.foldr insertDesc []

/-- Model of `calculate_recommendations` (association.py, lines 66-104): the
first 15 items of the score dictionary sorted by descending score. -/
def calculate_recommendations (m : List (List Bool)) (rules : List Rule) :
    List (Nat × ℚ) :=
  (sortDesc (score_items m rules)).take 15

/-- The recent-trend frequency as the spec words it, with the window an
external parameter. -/
def recent_freq_w (w : Nat) (m : List (List Bool)) (j : Nat) : ℚ :=
  (((m.drop (m.length - w)).countP fun row => row.getD j false : Nat) : ℚ) /
    ((m.drop (m.length - w)).length : ℚ)

/-- The score dictionary as the spec words it, with the recent window an
external parameter; compared against `number_scores`, whose window is the
constant 10. -/
def number_scores_w (w : Nat) (m : List (List Bool)) (rules : List Rule) : Nat → ℚ :=
  let s1 : Nat → ℚ := fun n =>
    if 1 ≤ n ∧ n ≤ 25 then numero_frequency m (n - 1) * (3 / 10) else 0
  let s2 := rules.foldl apply_rule s1
  fun n => if 1 ≤ n ∧ n ≤ 25 then s2 n + recent_freq_w w m (n - 1) * (3 / 10) else s2 n

/-- The scorer as the spec words it, with the recent window an external
parameter. -/
def scoreWithWindow (w : Nat) (m : List (List Bool)) (rules : List Rule) :
    List (Nat × ℚ) :=
  (sortDesc ((List.range 25).map fun i => (i + 1, number_scores_w w m rules (i + 1)))).take 15

/-- The spec's rule-strength sum for number `n`: one `confidence × support`
term per rule whose antecedent or consequent contains `n`. -/
def specRuleSum (rules : List Rule) (n : Nat) : ℚ :=
  ((rules.filter fun r => n ∈ r.antecedents ∨ n ∈ r.consequents).map
    fun r => r.confidence * r.support).sum

/-- The ranking order realised by the sorted score items: strictly higher
score first, ties in first-enumerated order (ascending number). -/
def RankedBefore (a b : Nat × ℚ) : Prop :=
  b.2 < a.2 ∨ (a.2 = b.2 ∧ a.1 < b.1)

/-- One step of the quadrant loop in `analyze_number_patterns` (association.py,
lines 126-137): the four counters cover `n ≤ 6`, `6 < n ≤ 12`, `12 < n ≤ 18`
and everything larger. -/
def quadrantUpdate (q : List Nat) (n : Int) : List Nat :=
  if n ≤ 6 then q.set 0 (q.getD 0 0 + 1)
  else if n ≤ 12 then q.set 1 (q.getD 1 0 + 1)
  else if n ≤ 18 then q.set 2 (q.getD 2 0 + 1)
  else q.set 3 (q.getD 3 0 + 1)

/-- The per-draw quadrant counts, starting from `[0]*4`. -/
def quadrantes (numeros : List Int) : List Nat :=
  numeros.foldl quadrantUpdate [0, 0, 0, 0]

/-- Scenario B input: a draw row with only 14 numbers. -/
def row14 : List Int :=
  [1, 2, 3, 4, 5, 6, 7, 8, 9, 10, 11, 12, 13, 14]

/-- The draw {1,...,15} as a one-hot row. -/
def rowA : List Bool :=
  List.replicate 15 true ++ List.replicate 10 false

/-- The draw {7, 11, 12, ..., 24} as a one-hot row (15 numbers). -/
def rowB : List Bool :=
  (List.range 25).map fun j => decide (j = 6 ∨ (10 ≤ j ∧ j ≤ 23))

/-- Twenty draws, each containing number 7: ten draws {1..15} followed by ten
draws {7,11..24}. -/
def historyAll7 : List (List Bool) :=
  List.replicate 10 rowA ++ List.replicate 10 rowB

/-- A rule set over `historyAll7` that never mentions 7.  Every support and
confidence below is the exact value the miner would compute on `historyAll7`
(pairs within {11..15} co-occur in all 20 draws; pairs within {16..24} and
pairs within {1..5} co-occur in 10 of 20 draws, conditionally always), and
every rule clears the deployed thresholds 0.25 / 0.45. -/
def rulesNo7 : List Rule :=
  [⟨[11], [12], 1, 1⟩, ⟨[13], [14], 1, 1⟩, ⟨[15], [11], 1, 1⟩,
   ⟨[16], [17], 1 / 2, 1⟩, ⟨[18], [19], 1 / 2, 1⟩, ⟨[20], [21], 1 / 2, 1⟩,
   ⟨[22], [23], 1 / 2, 1⟩, ⟨[24], [16], 1 / 2, 1⟩,
   ⟨[1], [2], 1 / 2, 1⟩, ⟨[1], [3], 1 / 2, 1⟩, ⟨[1], [4], 1 / 2, 1⟩,
   ⟨[1], [5], 1 / 2, 1⟩]

/-- Twelve single-column rows in which number 1 appears exactly in rows 3-7
(0-based 2-6): its frequency over the last 10 rows is 1/2, over the last 5
rows 0. -/
def historyWindowSensitive : List (List Bool) :=
  (List.range 12).map fun i => [decide (2 ≤ i ∧ i ≤ 6)]

theorem encodeStep_ok {v : Int} (h1 : -24 ≤ v) (h2 : v ≤ 25) (acc : List Bool) :
    encodeStep acc v = Except.ok (encodeSet acc v) := by
  have h : -25 ≤ v - 1 ∧ v - 1 < 25 := by omega
  simp [encodeStep, encodeSet, h]

theorem encodeRow_ok_aux (row : List Int) :
    ∀ acc : List Bool, (∀ v ∈ row, -24 ≤ v ∧ v ≤ 25) →
      row.foldlM encodeStep acc = Except.ok (row.foldl encodeSet acc) := by
  induction row with
  | nil => intro acc _; rfl
  | cons a t ih =>
    intro acc h
    have ha := h a (List.mem_cons_self a t)
    rw [List.foldlM_cons, encodeStep_ok ha.1 ha.2, List.foldl_cons]
    exact ih (encodeSet acc a) fun v hv => h v (List.mem_cons_of_mem a hv)

theorem encodeRow_ok (row : List Int) (h : ∀ v ∈ row, -24 ≤ v ∧ v ≤ 25) :
    encodeRow row = Except.ok (encodeRowPure row) :=
  encodeRow_ok_aux row (List.replicate 25 false) h

theorem getD_set_preserve (l : List Bool) (i j : Nat) (h : l.getD j false = true) :
    (l.set i true).getD j false = true := by
  induction l generalizing i j with
  | nil => simp at h
  | cons b t ih =>
    cases i with
    | zero =>
      cases j with
      | zero => simp
      | succ j => simpa using h
    | succ i =>
      cases j with
      | zero => simpa using h
      | succ j => simpa using ih i j (by simpa using h)

theorem getD_set_self (l : List Bool) (i : Nat) (h : i < l.length) :
    (l.set i true).getD i false = true := by
  induction l generalizing i with
  | nil => simp at h
  | cons b t ih =>
    cases i with
    | zero => simp
    | succ i => simpa using ih i (by simpa using h)

theorem foldl_encodeSet_preserve (t : List Int) :
    ∀ acc : List Bool, acc.getD 24 false = true →
      (t.foldl encodeSet acc).getD 24 false = true := by
  induction t with
  | nil => intro acc h; exact h
  | cons a s ih =>
    intro acc h
    rw [List.foldl_cons]
    exact ih _ (getD_set_preserve _ _ _ h)

theorem foldl_encodeSet_length (t : List Int) :
    ∀ acc : List Bool, (t.foldl encodeSet acc).length = acc.length := by
  induction t with
  | nil => intro acc; rfl
  | cons a s ih =>
    intro acc
    rw [List.foldl_cons]
    rw [ih]
    simp [encodeSet]

/-- C10: a row containing the out-of-range value 0 is encoded without any
error: the offset index -1 wraps to the last column, so the cell for
`num_25` is silently set. -/
theorem zero_wraps_to_num25 (row : List Int)
    (hrange : ∀ v ∈ row, 0 ≤ v ∧ v ≤ 25) (h0 : (0 : Int) ∈ row) :
    ∃ r, encodeRow row = Except.ok r ∧ r.getD 24 false = true ∧ r.length = 25 := by
  have hr : ∀ v ∈ row, -24 ≤ v ∧ v ≤ 25 := fun v hv =>
    ⟨by have := (hrange v hv).1; omega, (hrange v hv).2⟩
  refine ⟨encodeRowPure row, encodeRow_ok row hr, ?_, ?_⟩
  · obtain ⟨s, t, rfl⟩ := List.append_of_mem h0
    unfold encodeRowPure
    rw [List.foldl_append, List.foldl_cons]
    apply foldl_encodeSet_preserve
    have hlen : (List.foldl encodeSet (List.replicate 25 false) s).length = 25 := by
      rw [foldl_encodeSet_length]; simp
    have hidx : ((((0 : Int) - 1) % 25).toNat) = 24 := by decide
    have hstep : encodeSet (List.foldl encodeSet (List.replicate 25 false) s) 0 =
        (List.foldl encodeSet (List.replicate 25 false) s).set 24 true := by
      simp only [encodeSet, hidx]
    rw [hstep]
    exact getD_set_self _ _ (by omega)
  · unfold encodeRowPure
    rw [foldl_encodeSet_length]
    simp

theorem zero_wraps_to_num25_witness :
    (∀ v ∈ ([0, 1, 2, 3, 4, 5, 6, 7, 8, 9, 10, 11, 12, 13, 14] : List Int),
      0 ≤ v ∧ v ≤ 25) ∧
    (0 : Int) ∈ ([0, 1, 2, 3, 4, 5, 6, 7, 8, 9, 10, 11, 12, 13, 14] : List Int) ∧
    ∃ r, encodeRow [0, 1, 2, 3, 4, 5, 6, 7, 8, 9, 10, 11, 12, 13, 14] = Except.ok r ∧
      r.getD 24 false = true ∧ r.length = 25 :=
  ⟨by decide, by decide, zero_wraps_to_num25 _ (by decide) (by decide)⟩

/-- C2 counterexample: the Scenario B input — a history whose only row has 14
numbers — is not rejected; `load_and_prepare_data` silently encodes it into a
row with 14 set cells.  No `ValidationError` (indeed no exception class at
all) exists in the source. -/
theorem wrong_cardinality_not_rejected :
    load_and_prepare_data [row14] =
      Except.ok [List.replicate 14 true ++ List.replicate 11 false] := by
  with_unfolding_all rfl

/-- C2 amended: the pipeline performs no validation.  Every history whose
values keep the numpy index in range — wrong cardinalities and the
out-of-range value 0 included — is encoded without error, one matrix row per
input row. -/
theorem no_validation_encoding_succeeds (rows : List (List Int))
    (h : ∀ r ∈ rows, ∀ v ∈ r, -24 ≤ v ∧ v ≤ 25) :
    ∃ mat, load_and_prepare_data rows = Except.ok mat ∧ mat.length = rows.length := by
  induction rows with
  | nil => exact ⟨[], rfl, rfl⟩
  | cons r t ih =>
    obtain ⟨mat, hmat, hlen⟩ := ih fun r' hr' => h r' (List.mem_cons_of_mem r hr')
    refine ⟨encodeRowPure r :: mat, ?_, by simp [hlen]⟩
    rw [load_and_prepare_data, List.mapM_cons,
      encodeRow_ok r (h r (List.mem_cons_self r t))]
    rw [load_and_prepare_data] at hmat
    have hmat' : List.mapM.loop encodeRow t [] = Except.ok mat := hmat
    simp [hmat']
    rfl

theorem no_validation_encoding_succeeds_witness :
    (∀ r ∈ [row14], ∀ v ∈ r, -24 ≤ v ∧ v ≤ 25) ∧
    ∃ mat, load_and_prepare_data [row14] = Except.ok mat ∧ mat.length = [row14].length :=
  ⟨by decide, no_validation_encoding_succeeds [row14] (by decide)⟩

/-- C3 counterexample: with the deployed thresholds, mining an empty
occurrence matrix raises nothing and silently yields empty itemsets and an
empty rule list; no `InsufficientDataError` exists in the source. -/
theorem empty_matrix_no_error :
    analyze_patterns (25 / 100) (45 / 100) [] = ([], []) := by
  with_unfolding_all rfl

theorem itemsetSupport_nil (s : List Nat) : itemsetSupport [] s = 0 := by
  simp [itemsetSupport]

/-- C3 amended: `analyze_patterns` contains no emptiness guard; for every
positive support threshold a zero-row matrix produces empty frequent
itemsets and an empty rule list, silently. -/
theorem empty_matrix_yields_empty_results (s c : ℚ) (hs : 0 < s) :
    analyze_patterns s c [] = ([], []) := by
  have hsing : frequentSingletons s [] = [] := by
    simp only [frequentSingletons, List.filter_eq_nil_iff]
    intro a _
    simp [itemsetSupport_nil, not_le, hs]
  simp [analyze_patterns, apriori, hsing, aprioriFrom, associationRules]

theorem empty_matrix_yields_empty_results_witness :
    (0 : ℚ) < 3 / 10 ∧ analyze_patterns (3 / 10) (1 / 2) [] = ([], []) :=
  ⟨by norm_num, empty_matrix_yields_empty_results (3 / 10) (1 / 2) (by norm_num)⟩

/-- C4 counterexample: constructing the analyzer with both thresholds outside
the interval (0,1] succeeds and stores the invalid values verbatim; no
`ConfigurationError` exists in the source and nothing is validated. -/
theorem invalid_config_accepted :
    LotofacilAnalyzer.init "lotofacil_onehot.csv" 5 (3 / 2) =
      ⟨"lotofacil_onehot.csv", 5, 3 / 2⟩ ∧
    ¬((0 : ℚ) < 5 ∧ (5 : ℚ) ≤ 1) :=
  ⟨rfl, by norm_num⟩

/-- C4 amended: `__init__` performs no validation whatsoever — any
`min_support` and `min_confidence` are accepted and stored as given, and
`max_itemset_size` is not a constructor parameter at all. -/
theorem init_stores_config_unvalidated (csv : String) (s c : ℚ) :
    (LotofacilAnalyzer.init csv s c).min_support = s ∧
      (LotofacilAnalyzer.init csv s c).min_confidence = c :=
  ⟨rfl, rfl⟩

/-- C5 counterexample: the recent window is not settable.  On a concrete
history the scorer's output coincides with the window-10 behaviour and
differs from the window-5 behaviour, so no caller-supplied window exists. -/
theorem recent_window_not_settable :
    calculate_recommendations historyWindowSensitive [] =
        scoreWithWindow 10 historyWindowSensitive [] ∧
      calculate_recommendations historyWindowSensitive [] ≠
        scoreWithWindow 5 historyWindowSensitive [] :=
  ⟨rfl, of_decide_eq_true (by with_unfolding_all rfl)⟩

/-- C5 amended: only `min_support` and `min_confidence` are externally
settable (they are constructor parameters threaded into the mining call);
the maximum itemset size is the literal `max_len=6` and the recent window
the literal slice `iloc[-10:]` — the pipeline always equals the spec-worded
parametric functions specialised to 6 and 10. -/
theorem fixed_window_and_max_len :
    (∀ (m : List (List Bool)) (rules : List Rule),
        calculate_recommendations m rules = scoreWithWindow 10 m rules) ∧
      (∀ (s c : ℚ) (m : List (List Bool)),
        analyze_patterns s c m = minePatterns s c 6 m) :=
  ⟨fun _ _ => rfl, fun _ _ _ => rfl⟩

theorem foldl_quadrantUpdate (nums : List Int) :
    ∀ a b c d : Nat, (∀ n ∈ nums, 1 ≤ n ∧ n ≤ 25) →
      nums.foldl quadrantUpdate [a, b, c, d] =
        [a + nums.countP (fun n => decide (1 ≤ n ∧ n ≤ 6)),
         b + nums.countP (fun n => decide (7 ≤ n ∧ n ≤ 12)),
         c + nums.countP (fun n => decide (13 ≤ n ∧ n ≤ 18)),
         d + nums.countP (fun n => decide (19 ≤ n ∧ n ≤ 25))] := by
  induction nums with
  | nil => intro a b c d _; simp
  | cons x t ih =>
    intro a b c d h
    have hx := h x (List.mem_cons_self x t)
    have ht : ∀ n ∈ t, 1 ≤ n ∧ n ≤ 25 := fun n hn => h n (List.mem_cons_of_mem x hn)
    rw [List.foldl_cons]
    by_cases h1 : x ≤ 6
    · have hq : quadrantUpdate [a, b, c, d] x = [a + 1, b, c, d] := by
        simp [quadrantUpdate, h1]
      rw [hq, ih (a + 1) b c d ht]
      simp only [List.countP_cons, List.cons.injEq, and_true, decide_eq_true_eq]
      refine ⟨?_, ?_, ?_, ?_⟩ <;> · split <;> omega
    · by_cases h2 : x ≤ 12
      · have hq : quadrantUpdate [a, b, c, d] x = [a, b + 1, c, d] := by
          simp [quadrantUpdate, h1, h2]
        rw [hq, ih a (b + 1) c d ht]
        simp only [List.countP_cons, List.cons.injEq, and_true, decide_eq_true_eq]
        refine ⟨?_, ?_, ?_, ?_⟩ <;> · split <;> omega
      · by_cases h3 : x ≤ 18
        · have hq : quadrantUpdate [a, b, c, d] x = [a, b, c + 1, d] := by
            simp [quadrantUpdate, h1, h2, h3]
          rw [hq, ih a b (c + 1) d ht]
          simp only [List.countP_cons, List.cons.injEq, and_true, decide_eq_true_eq]
          refine ⟨?_, ?_, ?_, ?_⟩ <;> · split <;> omega
        · have hq : quadrantUpdate [a, b, c, d] x = [a, b, c, d + 1] := by
            simp [quadrantUpdate, h1, h2, h3]
          rw [hq, ih a b c (d + 1) ht]
          simp only [List.countP_cons, List.cons.injEq, and_true, decide_eq_true_eq]
          refine ⟨?_, ?_, ?_, ?_⟩ <;> · split <;> omega

/-- C9: on any draw within the valid range the quadrant loop counts exactly
the four fixed asymmetric ranges 1-6, 7-12, 13-18 and 19-25. -/
theorem quadrant_partition (numeros : List Int)
    (h : ∀ n ∈ numeros, 1 ≤ n ∧ n ≤ 25) :
    quadrantes numeros =
      [numeros.countP (fun n => decide (1 ≤ n ∧ n ≤ 6)),
       numeros.countP (fun n => decide (7 ≤ n ∧ n ≤ 12)),
       numeros.countP (fun n => decide (13 ≤ n ∧ n ≤ 18)),
       numeros.countP (fun n => decide (19 ≤ n ∧ n ≤ 25))] := by
  simpa [quadrantes] using foldl_quadrantUpdate numeros 0 0 0 0 h

theorem quadrant_partition_witness :
    (∀ n ∈ ([1, 2, 3, 4, 5, 6, 7, 8, 9, 10, 11, 12, 13, 14, 15] : List Int),
      1 ≤ n ∧ n ≤ 25) ∧
    quadrantes [1, 2, 3, 4, 5, 6, 7, 8, 9, 10, 11, 12, 13, 14, 15] =
      [List.countP (fun n => decide (1 ≤ n ∧ n ≤ 6))
        ([1, 2, 3, 4, 5, 6, 7, 8, 9, 10, 11, 12, 13, 14, 15] : List Int),
       List.countP (fun n => decide (7 ≤ n ∧ n ≤ 12))
        [1, 2, 3, 4, 5, 6, 7, 8, 9, 10, 11, 12, 13, 14, 15],
       List.countP (fun n => decide (13 ≤ n ∧ n ≤ 18))
        [1, 2, 3, 4, 5, 6, 7, 8, 9, 10, 11, 12, 13, 14, 15],
       List.countP (fun n => decide (19 ≤ n ∧ n ≤ 25))
        [1, 2, 3, 4, 5, 6, 7, 8, 9, 10, 11, 12, 13, 14, 15]] ∧
    quadrantes [1, 2, 3, 4, 5, 6, 7, 8, 9, 10, 11, 12, 13, 14, 15] = [6, 6, 3, 0] :=
  ⟨by decide, quadrant_partition _ (by decide), by decide⟩

theorem insertDesc_perm (x : Nat × ℚ) (l : List (Nat × ℚ)) :
    (insertDesc x l).Perm (x :: l) := by
  induction l with
  | nil => simp [insertDesc]
  | cons y ys ih =>
    rw [insertDesc]
    split
    · exact List.Perm.refl _
    · exact (ih.cons y).trans (List.Perm.swap x y ys)

theorem sortDesc_perm (l : List (Nat × ℚ)) : (sortDesc l).Perm l := by
  induction l with
  | nil => simp [sortDesc]
  | cons x t ih =>
    have h : sortDesc (x :: t) = insertDesc x (sortDesc t) := rfl
    rw [h]
    exact (insertDesc_perm x (sortDesc t)).trans (ih.cons x)

theorem mem_insertDesc {y x : Nat × ℚ} {l : List (Nat × ℚ)}
    (h : y ∈ insertDesc x l) : y = x ∨ y ∈ l := by
  simpa using (insertDesc_perm x l).mem_iff.mp h

theorem insertDesc_pairwise {x : Nat × ℚ} {l : List (Nat × ℚ)}
    (hl : l.Pairwise RankedBefore) (hx : ∀ y ∈ l, x.1 < y.1) :
    (insertDesc x l).Pairwise RankedBefore := by
  induction l with
  | nil => simp [insertDesc, RankedBefore]
  | cons y ys ih =>
    obtain ⟨hy, hys⟩ := List.pairwise_cons.mp hl
    rw [insertDesc]
    split
    · rename_i hle
      refine List.pairwise_cons.mpr ⟨?_, hl⟩
      intro z hz
      rcases List.mem_cons.mp hz with rfl | hz'
      · rcases lt_or_eq_of_le hle with hlt | heq
        · exact Or.inl hlt
        · exact Or.inr ⟨heq.symm, hx _ (List.mem_cons_self _ _)⟩
      · have hz2 : z.2 ≤ x.2 := by
          rcases hy z hz' with hlt | ⟨heq, _⟩
          · exact le_trans (le_of_lt hlt) hle
          · exact heq ▸ hle
        rcases lt_or_eq_of_le hz2 with hlt | heq
        · exact Or.inl hlt
        · exact Or.inr ⟨heq.symm, hx _ (List.mem_cons_of_mem _ hz')⟩
    · rename_i hgt
      have hxy : x.2 < y.2 := lt_of_not_le hgt
      refine List.pairwise_cons.mpr
        ⟨?_, ih hys fun z hz => hx _ (List.mem_cons_of_mem _ hz)⟩
      intro z hz
      rcases mem_insertDesc hz with rfl | hz'
      · exact Or.inl hxy
      · exact hy z hz'

theorem sortDesc_pairwise (l : List (Nat × ℚ))
    (h : l.Pairwise fun a b => a.1 < b.1) :
    (sortDesc l).Pairwise RankedBefore := by
  induction l with
  | nil => simp [sortDesc]
  | cons x t ih =>
    obtain ⟨hx, ht⟩ := List.pairwise_cons.mp h
    show (insertDesc x (sortDesc t)).Pairwise RankedBefore
    refine insertDesc_pairwise (ih ht) fun y hy => hx y ((sortDesc_perm t).mem_iff.mp hy)

theorem score_items_length (m : List (List Bool)) (rules : List Rule) :
    (score_items m rules).length = 25 := by
  simp [score_items]

theorem mem_score_items {m : List (List Bool)} {rules : List Rule} {p : Nat × ℚ}
    (h : p ∈ score_items m rules) :
    (1 ≤ p.1 ∧ p.1 ≤ 25) ∧ p.2 = number_scores m rules p.1 := by
  simp only [score_items, List.mem_map, List.mem_range] at h
  obtain ⟨i, hi, rfl⟩ := h
  exact ⟨⟨by omega, by omega⟩, rfl⟩

theorem score_items_mem (m : List (List Bool)) (rules : List Rule) (n : Nat)
    (h1 : 1 ≤ n) (h2 : n ≤ 25) :
    (n, number_scores m rules n) ∈ score_items m rules := by
  simp only [score_items, List.mem_map, List.mem_range]
  refine ⟨n - 1, by omega, ?_⟩
  have h : n - 1 + 1 = n := by omega
  rw [h]

theorem score_items_fst (m : List (List Bool)) (rules : List Rule) :
    (score_items m rules).map Prod.fst = (List.range 25).map fun i => i + 1 := by
  simp [score_items, List.map_map]

theorem score_items_pairwise (m : List (List Bool)) (rules : List Rule) :
    (score_items m rules).Pairwise fun a b => a.1 < b.1 := by
  rw [score_items, List.pairwise_map]
  exact (List.pairwise_lt_range 25).imp fun h => by omega

theorem sorted_items_fst_nodup (m : List (List Bool)) (rules : List Rule) :
    ((sortDesc (score_items m rules)).map Prod.fst).Nodup := by
  have hin : ((score_items m rules).map Prod.fst).Nodup := by
    rw [score_items_fst]
    exact (List.nodup_range 25).map fun a b h => by omega
  exact (((sortDesc_perm (score_items m rules)).map Prod.fst).nodup_iff).mpr hin

/-- C6: for every non-empty draw history and rule set over the 25 numbers,
the recommendation consists of exactly 15 distinct numbers in 1..25. -/
theorem recommendation_fifteen_distinct (m : List (List Bool)) (rules : List Rule)
    (hm : m ≠ [])
    (hr : ∀ r ∈ rules, ∀ v ∈ r.antecedents ++ r.consequents, 1 ≤ v ∧ v ≤ 25) :
    ((calculate_recommendations m rules).map Prod.fst).length = 15 ∧
      ((calculate_recommendations m rules).map Prod.fst).Nodup ∧
      ∀ n ∈ (calculate_recommendations m rules).map Prod.fst, 1 ≤ n ∧ n ≤ 25 := by
  have hperm := sortDesc_perm (score_items m rules)
  have hlen : (sortDesc (score_items m rules)).length = 25 := by
    rw [hperm.length_eq, score_items_length]
  refine ⟨?_, ?_, ?_⟩
  · rw [List.length_map, calculate_recommendations, List.length_take, hlen]
    omega
  · rw [calculate_recommendations, List.map_take]
    exact (sorted_items_fst_nodup m rules).sublist (List.take_sublist 15 _)
  · intro n hn
    obtain ⟨p, hp, rfl⟩ := List.mem_map.mp hn
    exact (mem_score_items (hperm.mem_iff.mp (List.mem_of_mem_take hp))).1

theorem recommendation_fifteen_distinct_witness :
    [rowA] ≠ ([] : List (List Bool)) ∧
    (∀ r ∈ ([] : List Rule), ∀ v ∈ r.antecedents ++ r.consequents, 1 ≤ v ∧ v ≤ 25) ∧
    (((calculate_recommendations [rowA] []).map Prod.fst).length = 15 ∧
      ((calculate_recommendations [rowA] []).map Prod.fst).Nodup ∧
      ∀ n ∈ (calculate_recommendations [rowA] []).map Prod.fst, 1 ≤ n ∧ n ≤ 25) :=
  ⟨by simp, by simp, recommendation_fifteen_distinct [rowA] [] (by simp) (by simp)⟩

/-- C7: the recommendation is the top 15 by descending score, ties resolved
in first-enumerated order (ascending number), every listed score being the
number's final score, and every non-selected number scoring no higher than
any selected one. -/
theorem recommendation_sorted_top15 (m : List (List Bool)) (rules : List Rule)
    (hr : ∀ r ∈ rules, ∀ v ∈ r.antecedents ++ r.consequents, 1 ≤ v ∧ v ≤ 25) :
    (calculate_recommendations m rules).Pairwise RankedBefore ∧
      (∀ p ∈ calculate_recommendations m rules, p.2 = number_scores m rules p.1) ∧
      ∀ n, 1 ≤ n → n ≤ 25 → n ∉ (calculate_recommendations m rules).map Prod.fst →
        ∀ p ∈ calculate_recommendations m rules, number_scores m rules n ≤ p.2 := by
  have hpw := sortDesc_pairwise _ (score_items_pairwise m rules)
  have hperm := sortDesc_perm (score_items m rules)
  refine ⟨?_, ?_, ?_⟩
  · exact hpw.sublist (List.take_sublist 15 _)
  · intro p hp
    exact (mem_score_items (hperm.mem_iff.mp (List.mem_of_mem_take hp))).2
  · intro n h1 h2 hnot p hp
    have hmem : (n, number_scores m rules n) ∈ sortDesc (score_items m rules) :=
      hperm.mem_iff.mpr (score_items_mem m rules n h1 h2)
    rw [← List.take_append_drop 15 (sortDesc (score_items m rules))] at hmem hpw
    have hdrop : (n, number_scores m rules n) ∈
        (sortDesc (score_items m rules)).drop 15 := by
      rcases List.mem_append.mp hmem with htake | hdrop
      · exact absurd (List.mem_map_of_mem Prod.fst htake) hnot
      · exact hdrop
    obtain ⟨-, -, hcross⟩ := List.pairwise_append.mp hpw
    rcases hcross p hp _ hdrop with hlt | ⟨heq, -⟩
    · exact le_of_lt hlt
    · exact le_of_eq heq.symm

theorem recommendation_sorted_top15_witness :
    (∀ r ∈ ([] : List Rule), ∀ v ∈ r.antecedents ++ r.consequents, 1 ≤ v ∧ v ≤ 25) ∧
    ((calculate_recommendations [rowA] []).Pairwise RankedBefore ∧
      (∀ p ∈ calculate_recommendations [rowA] [], p.2 = number_scores [rowA] [] p.1) ∧
      ∀ n, 1 ≤ n → n ≤ 25 → n ∉ (calculate_recommendations [rowA] []).map Prod.fst →
        ∀ p ∈ calculate_recommendations [rowA] [], number_scores [rowA] [] n ≤ p.2) :=
  ⟨by simp, recommendation_sorted_top15 [rowA] [] (by simp)⟩

theorem foldl_updScore (nums : List Nat) (v : ℚ) :
    ∀ (s : Nat → ℚ) (k : Nat),
      (nums.foldl (fun acc num => updScore acc num v) s) k =
        s k + v * ((nums.count k : Nat) : ℚ) := by
  induction nums with
  | nil => intro s k; simp
  | cons a t ih =>
    intro s k
    rw [List.foldl_cons, ih]
    by_cases hk : k = a
    · subst hk
      simp only [updScore, if_pos rfl, List.count_cons_self]
      push_cast
      ring
    · simp only [updScore, if_neg hk, List.count_cons_of_ne hk]

theorem apply_rule_eval (s : Nat → ℚ) (r : Rule) (k : Nat) :
    apply_rule s r k =
      s k + rule_score r * (((r.antecedents ++ r.consequents).count k : Nat) : ℚ) :=
  foldl_updScore _ _ s k

theorem rules_foldl_eval (rules : List Rule) :
    ∀ (s : Nat → ℚ) (k : Nat),
      (rules.foldl apply_rule s) k =
        s k + (rules.map fun r =>
          rule_score r * (((r.antecedents ++ r.consequents).count k : Nat) : ℚ)).sum := by
  induction rules with
  | nil => intro s k; simp
  | cons r t ih =>
    intro s k
    rw [List.foldl_cons, ih, apply_rule_eval, List.map_cons, List.sum_cons]
    ring

theorem count_one_of_nodup_disjoint (r : Rule) (n : Nat)
    (hant : r.antecedents.Nodup) (hcons : r.consequents.Nodup)
    (hdisj : ∀ a ∈ r.antecedents, a ∉ r.consequents) :
    (((r.antecedents ++ r.consequents).count n : Nat) : ℚ) =
      if n ∈ r.antecedents ∨ n ∈ r.consequents then 1 else 0 := by
  rw [List.count_append]
  by_cases ha : n ∈ r.antecedents
  · rw [if_pos (Or.inl ha), List.count_eq_one_of_mem hant ha,
      List.count_eq_zero.mpr (hdisj n ha)]
    norm_num
  · by_cases hb : n ∈ r.consequents
    · rw [if_pos (Or.inr hb), List.count_eq_zero.mpr ha,
        List.count_eq_one_of_mem hcons hb]
      norm_num
    · rw [if_neg (by tauto), List.count_eq_zero.mpr ha, List.count_eq_zero.mpr hb]
      norm_num

theorem specRuleSum_cons (r : Rule) (t : List Rule) (n : Nat) :
    specRuleSum (r :: t) n =
      if n ∈ r.antecedents ∨ n ∈ r.consequents then
        r.confidence * r.support + specRuleSum t n
      else specRuleSum t n := by
  by_cases h : n ∈ r.antecedents ∨ n ∈ r.consequents <;>
    simp [specRuleSum, List.filter_cons, h]

theorem ruleSum_eq (rules : List Rule) (n : Nat)
    (hr : ∀ r ∈ rules, r.antecedents.Nodup ∧ r.consequents.Nodup ∧
      (∀ a ∈ r.antecedents, a ∉ r.consequents) ∧
      ∀ v ∈ r.antecedents ++ r.consequents, 1 ≤ v ∧ v ≤ 25) :
    (rules.map fun r =>
        rule_score r * (((r.antecedents ++ r.consequents).count n : Nat) : ℚ)).sum =
      (4 / 10) * specRuleSum rules n := by
  induction rules with
  | nil => simp [specRuleSum]
  | cons r t ih =>
    obtain ⟨hant, hcons, hdisj, -⟩ := hr r (List.mem_cons_self r t)
    have ih' := ih fun r' h' => hr r' (List.mem_cons_of_mem r h')
    rw [List.map_cons, List.sum_cons, ih',
      count_one_of_nodup_disjoint r n hant hcons hdisj, specRuleSum_cons]
    by_cases h : n ∈ r.antecedents ∨ n ∈ r.consequents
    · rw [if_pos h, if_pos h, rule_score]
      ring
    · rw [if_neg h, if_neg h]
      ring

/-- C1: for every occurrence matrix and every rule set satisfying the
Association Rule invariants (antecedent and consequent are disjoint
duplicate-free number lists over 1..25 — in Python any other member would
raise `KeyError`), the final score of a number n in 1..25 is
0.3 × base frequency + 0.4 × Σ over rules containing n of
(confidence × support) + 0.3 × recent frequency. -/
theorem final_score_formula (m : List (List Bool)) (rules : List Rule) (n : Nat)
    (h1 : 1 ≤ n) (h2 : n ≤ 25)
    (hr : ∀ r ∈ rules, r.antecedents.Nodup ∧ r.consequents.Nodup ∧
      (∀ a ∈ r.antecedents, a ∉ r.consequents) ∧
      ∀ v ∈ r.antecedents ++ r.consequents, 1 ≤ v ∧ v ≤ 25) :
    number_scores m rules n =
      (3 / 10) * numero_frequency m (n - 1) + (4 / 10) * specRuleSum rules n +
        (3 / 10) * recent_freq m (n - 1) := by
  have hn : 1 ≤ n ∧ n ≤ 25 := ⟨h1, h2⟩
  unfold number_scores
  rw [if_pos hn, rules_foldl_eval, ruleSum_eq rules n hr, if_pos hn]
  ring

theorem final_score_formula_witness :
    (1 ≤ 7 ∧ 7 ≤ 25) ∧
    (∀ r ∈ [(⟨[7], [8], 1 / 2, 1 / 2⟩ : Rule)],
      r.antecedents.Nodup ∧ r.consequents.Nodup ∧
      (∀ a ∈ r.antecedents, a ∉ r.consequents) ∧
      ∀ v ∈ r.antecedents ++ r.consequents, 1 ≤ v ∧ v ≤ 25) ∧
    number_scores [rowA] [⟨[7], [8], 1 / 2, 1 / 2⟩] 7 =
      (3 / 10) * numero_frequency [rowA] 6 +
        (4 / 10) * specRuleSum [⟨[7], [8], 1 / 2, 1 / 2⟩] 7 +
        (3 / 10) * recent_freq [rowA] 6 :=
  ⟨by decide, by decide,
    final_score_formula [rowA] [⟨[7], [8], 1 / 2, 1 / 2⟩] 7 (by decide) (by decide)
      (by decide)⟩

theorem countP_set_false (l : List Bool) :
    ∀ j : Nat, l.getD j false = true →
      (l.set j false).countP (fun b => b) + 1 = l.countP (fun b => b) := by
  induction l with
  | nil => intro j h; simp at h
  | cons b t ih =>
    intro j h
    cases j with
    | zero =>
      simp only [List.getD_cons_zero] at h
      subst h
      simp [List.countP_cons]
    | succ j =>
      simp only [List.getD_cons_succ] at h
      have hih := ih j h
      cases b <;> simp [List.countP_cons] <;> omega

theorem getD_set_ne (l : List Bool) (b : Bool) :
    ∀ i j : Nat, i ≠ j → (l.set i b).getD j false = l.getD j false := by
  induction l with
  | nil => intro i j _; simp
  | cons c t ih =>
    intro i j hij
    cases i with
    | zero =>
      cases j with
      | zero => exact absurd rfl hij
      | succ j => simp
    | succ i =>
      cases j with
      | zero => simp
      | succ j => simpa using ih i j (by omega)

theorem length_le_countP (l : List Nat) :
    ∀ row : List Bool, l.Nodup → (∀ j ∈ l, row.getD j false = true) →
      l.length ≤ row.countP (fun b => b) := by
  induction l with
  | nil => intro row _ _; simp
  | cons j t ih =>
    intro row hnd h
    obtain ⟨hj, ht⟩ := List.pairwise_cons.mp hnd
    have hjt : row.getD j false = true := h j (List.mem_cons_self j t)
    have hlen := countP_set_false row j hjt
    have harg : ∀ i ∈ t, (row.set j false).getD i false = true := by
      intro i hi
      rw [getD_set_ne row false j i (hj i hi)]
      exact h i (List.mem_cons_of_mem j hi)
    have hih := ih (row.set j false) ht harg
    simp only [List.length_cons]
    omega

theorem number_scores_nil (m : List (List Bool)) (n : Nat) (h : 1 ≤ n ∧ n ≤ 25) :
    number_scores m [] n =
      (numero_frequency m (n - 1) + recent_freq m (n - 1)) * (3 / 10) := by
  unfold number_scores
  rw [if_pos h]
  simp only [List.foldl_nil]
  rw [if_pos h]
  ring

theorem numero_frequency_le_one (m : List (List Bool)) (hm : m ≠ []) (j : Nat) :
    numero_frequency m j ≤ 1 := by
  rw [numero_frequency]
  have hlen : 0 < (m.length : ℚ) := by
    have h := List.length_pos.mpr hm
    exact_mod_cast h
  rw [div_le_one hlen]
  exact_mod_cast List.countP_le_length _

theorem recent_games_length_pos (m : List (List Bool)) (hm : m ≠ []) :
    0 < (recent_games m).length := by
  rw [recent_games, List.length_drop]
  have h := List.length_pos.mpr hm
  omega

theorem recent_freq_le_one (m : List (List Bool)) (hm : m ≠ []) (j : Nat) :
    recent_freq m j ≤ 1 := by
  rw [recent_freq]
  have hlen : 0 < ((recent_games m).length : ℚ) := by
    exact_mod_cast recent_games_length_pos m hm
  rw [div_le_one hlen]
  exact_mod_cast List.countP_le_length _

theorem numero_frequency_eq_one (m : List (List Bool)) (hm : m ≠ []) (j : Nat)
    (h : ∀ r ∈ m, r.getD j false = true) : numero_frequency m j = 1 := by
  rw [numero_frequency]
  have hcnt : (m.countP fun row => row.getD j false) = m.length :=
    List.countP_eq_length.mpr (by intro a ha; simpa using h a ha)
  rw [hcnt]
  have hlen : (m.length : ℚ) ≠ 0 := by
    have h0 := List.length_pos.mpr hm
    exact_mod_cast Nat.pos_iff_ne_zero.mp h0
  exact div_self hlen

theorem all_true_of_numero_frequency_eq_one (m : List (List Bool)) (hm : m ≠ [])
    (j : Nat) (h : numero_frequency m j = 1) :
    ∀ r ∈ m, r.getD j false = true := by
  have hlen : (m.length : ℚ) ≠ 0 := by
    have h0 := List.length_pos.mpr hm
    exact_mod_cast Nat.pos_iff_ne_zero.mp h0
  rw [numero_frequency, div_eq_one_iff_eq hlen] at h
  have hcnt : (m.countP fun row => row.getD j false) = m.length := by
    exact_mod_cast h
  intro r hr
  simpa using List.countP_eq_length.mp hcnt r hr

theorem recent_freq_eq_one (m : List (List Bool)) (hm : m ≠ []) (j : Nat)
    (h : ∀ r ∈ m, r.getD j false = true) : recent_freq m j = 1 := by
  rw [recent_freq]
  have hcnt : ((recent_games m).countP fun row => row.getD j false) =
      (recent_games m).length :=
    List.countP_eq_length.mpr (by
      intro a ha
      have ha' : a ∈ m := List.mem_of_mem_drop ha
      simpa using h a ha')
  rw [hcnt]
  have hlen : ((recent_games m).length : ℚ) ≠ 0 := by
    have h0 := recent_games_length_pos m hm
    exact_mod_cast Nat.pos_iff_ne_zero.mp h0
  exact div_self hlen

/-- C8 amended: when a number k appears in every draw of a non-empty history
of genuine draws (width-25 rows with exactly 15 set cells), its base
frequency is 1.0, the maximum, and k belongs to the recommendation computed
with an empty rule set; a non-empty rule set can push 15 other numbers above
k (see the counterexample). -/
theorem max_base_in_recommendation_no_rules (m : List (List Bool)) (k : Nat)
    (hm : m ≠ [])
    (hrow : ∀ r ∈ m, r.length = 25 ∧ r.countP (fun b => b) = 15)
    (hk1 : 1 ≤ k) (hk2 : k ≤ 25)
    (hall : ∀ r ∈ m, r.getD (k - 1) false = true) :
    numero_frequency m (k - 1) = 1 ∧
      k ∈ (calculate_recommendations m []).map Prod.fst := by
  have hbase := numero_frequency_eq_one m hm (k - 1) hall
  refine ⟨hbase, ?_⟩
  by_contra hnot
  have hksc : number_scores m [] k = 3 / 5 := by
    rw [number_scores_nil m k ⟨hk1, hk2⟩, hbase, recent_freq_eq_one m hm (k - 1) hall]
    norm_num
  have hmax : ∀ n, 1 ≤ n → n ≤ 25 → number_scores m [] n ≤ 3 / 5 := by
    intro n h1 h2
    rw [number_scores_nil m n ⟨h1, h2⟩]
    have b1 := numero_frequency_le_one m hm (n - 1)
    have b2 := recent_freq_le_one m hm (n - 1)
    linarith
  have hfull : ∀ n, 1 ≤ n → n ≤ 25 → number_scores m [] n = 3 / 5 →
      ∀ r ∈ m, r.getD (n - 1) false = true := by
    intro n h1 h2 hsc
    have hb1 := numero_frequency_le_one m hm (n - 1)
    have hb2 := recent_freq_le_one m hm (n - 1)
    rw [number_scores_nil m n ⟨h1, h2⟩] at hsc
    have hbase1 : numero_frequency m (n - 1) = 1 := by linarith
    exact all_true_of_numero_frequency_eq_one m hm (n - 1) hbase1
  have hperm := sortDesc_perm (score_items m [])
  have hpw := sortDesc_pairwise _ (score_items_pairwise m [])
  have hmem : (k, number_scores m [] k) ∈ sortDesc (score_items m []) :=
    hperm.mem_iff.mpr (score_items_mem m [] k hk1 hk2)
  rw [← List.take_append_drop 15 (sortDesc (score_items m []))] at hmem hpw
  have hdrop : (k, number_scores m [] k) ∈ (sortDesc (score_items m [])).drop 15 := by
    rcases List.mem_append.mp hmem with htake | hd
    · exact absurd (List.mem_map_of_mem Prod.fst htake) hnot
    · exact hd
  obtain ⟨-, -, hcross⟩ := List.pairwise_append.mp hpw
  have hsel : ∀ p ∈ (sortDesc (score_items m [])).take 15,
      (1 ≤ p.1 ∧ p.1 ≤ 25) ∧ number_scores m [] p.1 = 3 / 5 := by
    intro p hp
    have hps := mem_score_items (hperm.mem_iff.mp (List.mem_of_mem_take hp))
    have hge : 3 / 5 ≤ p.2 := by
      rcases hcross p hp _ hdrop with hlt | ⟨heq, -⟩
      · rw [← hksc]
        exact le_of_lt hlt
      · rw [heq, hksc]
    have hle : p.2 ≤ 3 / 5 := by
      rw [hps.2]
      exact hmax p.1 hps.1.1 hps.1.2
    exact ⟨hps.1, by rw [← hps.2]; exact le_antisymm hle hge⟩
  obtain ⟨r0, t0, rfl⟩ : ∃ r0 t0, m = r0 :: t0 := by
    cases m with
    | nil => exact absurd rfl hm
    | cons a b => exact ⟨a, b, rfl⟩
  have hselprops : ∀ n ∈ ((sortDesc (score_items (r0 :: t0) [])).take 15).map Prod.fst,
      (1 ≤ n ∧ n ≤ 25) ∧ r0.getD (n - 1) false = true := by
    intro n hn
    obtain ⟨p, hp, rfl⟩ := List.mem_map.mp hn
    obtain ⟨hb, hsc⟩ := hsel p hp
    exact ⟨hb, hfull p.1 hb.1 hb.2 hsc r0 (List.mem_cons_self r0 t0)⟩
  have hsellen : (((sortDesc (score_items (r0 :: t0) [])).take 15).map Prod.fst).length
      = 15 := by
    rw [List.length_map, List.length_take, (sortDesc_perm _).length_eq, score_items_length]
    omega
  have hselnodup :
      (((sortDesc (score_items (r0 :: t0) [])).take 15).map Prod.fst).Nodup := by
    rw [List.map_take]
    exact (sorted_items_fst_nodup (r0 :: t0) []).sublist (List.take_sublist 15 _)
  have hknotsel : k ∉ ((sortDesc (score_items (r0 :: t0) [])).take 15).map Prod.fst :=
    hnot
  have hktrue : r0.getD (k - 1) false = true := hall r0 (List.mem_cons_self r0 t0)
  have hnodup16 :
      ((((sortDesc (score_items (r0 :: t0) [])).take 15).map Prod.fst) ++ [k]).Nodup := by
    refine List.nodup_append.mpr ⟨hselnodup, List.nodup_singleton k, ?_⟩
    intro a ha hb
    rw [List.mem_singleton] at hb
    subst hb
    exact hknotsel ha
  have hidxnodup :
      (((((sortDesc (score_items (r0 :: t0) [])).take 15).map Prod.fst) ++ [k]).map
        (fun n => n - 1)).Nodup := by
    refine hnodup16.map_on ?_
    intro x hx y hy hxy
    have hx1 : 1 ≤ x := by
      rcases List.mem_append.mp hx with h | h
      · exact (hselprops x h).1.1
      · rw [List.mem_singleton] at h; subst h; exact hk1
    have hy1 : 1 ≤ y := by
      rcases List.mem_append.mp hy with h | h
      · exact (hselprops y h).1.1
      · rw [List.mem_singleton] at h; subst h; exact hk1
    omega
  have hidxtrue : ∀ j ∈ (((((sortDesc (score_items (r0 :: t0) [])).take 15).map
      Prod.fst) ++ [k]).map (fun n => n - 1)), r0.getD j false = true := by
    intro j hj
    obtain ⟨n, hn, rfl⟩ := List.mem_map.mp hj
    rcases List.mem_append.mp hn with h | h
    · exact (hselprops n h).2
    · rw [List.mem_singleton] at h; subst h; exact hktrue
  have hcount := length_le_countP _ r0 hidxnodup hidxtrue
  have hidxlen : (((((sortDesc (score_items (r0 :: t0) [])).take 15).map Prod.fst)
      ++ [k]).map (fun n => n - 1)).length = 16 := by
    rw [List.length_map, List.length_append, hsellen]
    rfl
  have hr0 := (hrow r0 (List.mem_cons_self r0 t0)).2
  omega

theorem max_base_in_recommendation_no_rules_witness :
    [rowA] ≠ ([] : List (List Bool)) ∧
    (∀ r ∈ [rowA], r.length = 25 ∧ r.countP (fun b => b) = 15) ∧
    (1 ≤ 1 ∧ 1 ≤ 25) ∧
    (∀ r ∈ [rowA], r.getD (1 - 1) false = true) ∧
    (numero_frequency [rowA] (1 - 1) = 1 ∧
      1 ∈ (calculate_recommendations [rowA] []).map Prod.fst) :=
  ⟨by simp, by decide, by decide, by decide,
    max_base_in_recommendation_no_rules [rowA] 1 (by simp) (by decide) (by decide)
      (by decide) (by decide)⟩

/-- C8 counterexample: `historyAll7` is a 20-draw history in which number 7
appears in every draw, so its base frequency is 1.0; yet with the rule set
`rulesNo7` (whose supports and confidences are the exact values on this very
history) fifteen other numbers outscore 7 and the recommendation omits it —
the claim fails for this rule set, so membership does not hold regardless of
the rule set. -/
theorem always_present_number_excluded :
    historyAll7.length = 20 ∧
    (∀ r ∈ historyAll7, r.getD 6 false = true) ∧
    numero_frequency historyAll7 6 = 1 ∧
    7 ∉ (calculate_recommendations historyAll7 rulesNo7).map Prod.fst :=
  of_decide_eq_true (by with_unfolding_all rfl)
